import Mathlib

set_option maxHeartbeats 1000000
set_option maxRecDepth 4000

/-!
Shallow embedding of `src/assets/autocomplete.js` (DAPSY-dev/autocomplete).

The widget is a synchronous DOM state machine.  We model the observable
state of one `Autocomplete` instance:

* each generated item element is an `Item` carrying a unique element
  identity `id`, its displayed text (`innerText`), and the presence of the
  `itemVisible` and `itemActive` CSS classes;
* `elements.activeItem` is a JS reference to an element, which survives
  even when that element is detached from the DOM; we model the reference
  as an `ItemRef` (identity plus its immutable `innerText`);
* the `itemsWrapper` element's `is-visible` class is `panelVisible`, and
  the wrapper's own element identity is `itemsWrapperId` (a fresh wrapper
  is created by every `generateItems` call);
* `temp.hasItemsVisible`, the lifecycle marker class (`inited`), the DOM
  scaffolding (`wrapped`, `inputClassed`), the listener wiring
  (`listeners`, and `captured` = the element array captured by the
  `clickOutside` closure at `addEvents` time), the lifecycle callbacks
  (invocation counters) and `console.error` (a diagnostics counter).

`scrollIntoViewIfNeeded` is a pure view-layer effect (scroll positions)
with no influence on any claim and is not modelled.  JS
`String.prototype.toLowerCase` is modelled as per-character `Char.toLower`.
A JS `TypeError` (reading `.classList` of `undefined`) is modelled by an
operation returning `none`.
-/

/-- Model of JavaScript `s.toLowerCase()`. -/
def lower (s : String) : String := String.mk (s.data.map Char.toLower)

/-- `hasSubstr hay needle` models `hay.indexOf(needle) > -1`. -/
def hasSubstr : List Char → List Char → Bool
  | [], needle => needle.isEmpty
  | c :: t, needle => needle.isPrefixOf (c :: t) || hasSubstr t needle

/-- Substring containment on strings, as used by the filter loop. -/
def strContains (hay needle : String) : Bool := hasSubstr hay.data needle.data

/-- One generated item element: element identity, `innerText`, and the
`itemVisible` / `itemActive` class membership. -/
structure Item where
  id : Nat
  text : String
  visible : Bool
  active : Bool
deriving Repr, DecidableEq

/-- A retained JS reference to an item element (`this.elements.activeItem`):
the element identity and its immutable `innerText`.  The reference stays
valid even after the element is detached from the DOM. -/
structure ItemRef where
  id : Nat
  text : String
deriving Repr, DecidableEq

/-- Observable state of one `Autocomplete` instance. -/
structure AState where
  inputId : Nat
  inputValue : String
  optionsItems : List String
  valueMatchItem : Bool
  hasOnInit : Bool
  hasOnDestroy : Bool
  items : List Item
  itemsWrapperId : Nat
  panelVisible : Bool
  activeItem : Option ItemRef
  hasItemsVisible : Bool
  nextId : Nat
  inited : Bool
  wrapped : Bool
  inputClassed : Bool
  listeners : Bool
  captured : List Nat
  onInitCalls : Nat
  onDestroyCalls : Nat
  diagnostics : Nat
deriving Repr, DecidableEq

/-- `showItems()`: add the `itemsWrapperVisible` class. -/
def showItems (st : AState) : AState := { st with panelVisible := true }

/-- `clearActiveItemStyles()`: remove the `itemActive` class from every
element of `this.elements.items`. -/
def clearActiveItemStyles (st : AState) : AState :=
  { st with items := st.items.map (fun it => { it with active := false }) }

/-- `hideItems()`: remove the panel class, clear active styles and the
active reference; under `valueMatchItem`, clear the input's text unless it
case-insensitively equals some item's `innerText` (the whole collection is
scanned, visible or not). -/
def hideItems (st : AState) : AState :=
  let st1 := { st with panelVisible := false }
  let st2 := clearActiveItemStyles st1
  let st3 := { st2 with activeItem := none }
  if st3.valueMatchItem then
    let ivl := lower st3.inputValue
    let hasMatching := st3.items.any (fun it => lower it.text == ivl)
    if !hasMatching then { st3 with inputValue := "" } else st3
  else st3

/-- `handleInput()`: hide the panel when the (lowercased) input is empty,
otherwise show it; then re-mark every item's `itemVisible` class by
substring containment and recompute `temp.hasItemsVisible`. -/
def handleInput (st : AState) : AState :=
  let v := lower st.inputValue
  let st1 := if v == "" then hideItems st else showItems st
  let newItems := st1.items.map
    (fun it => { it with visible := strContains (lower it.text) v })
  { st1 with items := newItems, hasItemsVisible := newItems.any (fun it => it.visible) }

/-- The `querySelectorAll('.is-visible')` result inside the items wrapper:
the current items carrying the `itemVisible` class, in DOM order. -/
def visibleItems (st : AState) : List Item := st.items.filter (fun it => it.visible)

/-- `isShownWithItems()`. -/
def isShownWithItems (st : AState) : Bool := st.panelVisible && st.hasItemsVisible

/-- `Array.prototype.findIndex` by element identity, as a `Nat` position. -/
def jsIdxN : List Item → Nat → Option Nat
  | [], _ => none
  | it :: t, aid => if it.id = aid then some 0 else (jsIdxN t aid).map (fun n => n + 1)

/-- `findIndex` proper: `-1` when the element is absent. -/
def jsIdx (l : List Item) (aid : Nat) : Int :=
  match jsIdxN l aid with
  | some i => (i : Int)
  | none => -1

/-- JS array indexing `l[i]`: `undefined` (`none`) when out of bounds or
negative. -/
def jsGet (l : List Item) (i : Int) : Option Item :=
  if 0 ≤ i then l[i.toNat]? else none

/-- The two arrow directions handled by `handleArrowKey` (its call sites
pass exactly the strings `'ArrowUp'` and `'ArrowDown'`, both truthy, so
the `if (!direction) return` guard is vacuous). -/
inductive Dir where
  | up
  | down
deriving Repr, DecidableEq

/-- `handleArrowKey(direction)`: clear all highlights, recompute the
visible sequence, move `activeItem`, then apply the `itemActive` class to
the new active element.  When the computed new active element is
`undefined` (e.g. `items[-2]` after the stale active element left the
visible set), `undefined.classList` throws: modelled as `none`. -/
def handleArrowKey (dir : Dir) (st : AState) : Option AState :=
  let st1 := clearActiveItemStyles st
  let items1 := visibleItems st1
  let firstItem := jsGet items1 0
  let lastItem := jsGet items1 ((items1.length : Int) - 1)
  let newActive : Option Item :=
    match dir with
    | Dir.up =>
      match st1.activeItem with
      | some r =>
        if (match firstItem with | some f => f.id != r.id | none => true) then
          jsGet items1 (jsIdx items1 r.id - 1)
        else lastItem
      | none => lastItem
    | Dir.down =>
      match st1.activeItem with
      | some r =>
        if (match lastItem with | some f => f.id != r.id | none => true) then
          jsGet items1 (jsIdx items1 r.id + 1)
        else firstItem
      | none => firstItem
  match newActive with
  | none => none
  | some it =>
    some { st1 with
      activeItem := some ⟨it.id, it.text⟩
      , items := st1.items.map
          (fun j => if j.id = it.id then { j with active := true } else j) }

/-- `setInput(value)`: write the input, re-run `handleInput`, then
`hideItems`. -/
def setInput (v : String) (st : AState) : AState :=
  hideItems (handleInput { st with inputValue := v })

/-- `handleItemClick(event)`: commit the clicked element's `innerText`. -/
def handleItemClick (t : String) (st : AState) : AState := setInput t st

/-- `handleKeydown(event)` for a given `event.key` (guarded by
`isShownWithItems`). -/
def handleKeydown (key : String) (st : AState) : Option AState :=
  if isShownWithItems st then
    match key with
    | "ArrowUp" => handleArrowKey Dir.up st
    | "ArrowDown" => handleArrowKey Dir.down st
    | "Enter" =>
        match st.activeItem with
        | some r => some (setInput r.text st)
        | none => some st
    | _ => some st
  else some st

/-- Fresh item elements for `generateItems`: consecutive new element ids,
each created with the `item` and `itemVisible` classes and no `itemActive`
class. -/
def genItems : Nat → List String → List Item
  | _, [] => []
  | n, t :: ts => ⟨n, t, true, false⟩ :: genItems (n + 1) ts

/-- `generateItems(items)`: a fresh items wrapper (no visible class on a
newly created element) and one fresh element per string; `elements.items`
is replaced by the new collection. -/
def generateItemsSt (texts : List String) (st : AState) : AState :=
  { st with
    itemsWrapperId := st.nextId
    , panelVisible := false
    , items := genItems (st.nextId + 1) texts
    , nextId := st.nextId + 1 + texts.length }

/-- `setItems(items)`: replace `options.items`, drop the old wrapper and
item elements, regenerate.  Nothing resets `elements.activeItem`,
`temp.hasItemsVisible`, or the captured `clickOutside` element list. -/
def setItems (l : List String) (st : AState) : AState :=
  generateItemsSt l { st with optionsItems := l }

/-- `generateHTML()`: wrap the input, tag it, generate the items. -/
def generateHTMLSt (st : AState) : AState :=
  generateItemsSt st.optionsItems { st with wrapped := true, inputClassed := true }

/-- `addEvents()`: input listeners plus the `clickOutside` document
listener, whose closure captures the CURRENT input and items-wrapper
elements. -/
def addEvents (st : AState) : AState :=
  { st with listeners := true, captured := [st.inputId, st.itemsWrapperId] }

/-- `init()`: guarded by the marker class; otherwise scaffold, wire, run
the initial filter when the input is non-empty, set the marker, fire
`onInit`. -/
def init (st : AState) : AState :=
  if st.inited then { st with diagnostics := st.diagnostics + 1 }
  else
    let st1 := addEvents (generateHTMLSt st)
    let st2 := if st1.inputValue ≠ "" then handleInput st1 else st1
    let st3 := { st2 with inited := true }
    if st3.hasOnInit then { st3 with onInitCalls := st3.onInitCalls + 1 } else st3

/-- `destroy()`: guarded by the marker class; otherwise unwrap, remove
listeners, clear the marker, fire `onDestroy`. -/
def destroy (st : AState) : AState :=
  if !st.inited then { st with diagnostics := st.diagnostics + 1 }
  else
    let st1 := { st with wrapped := false, inputClassed := false }
    let st2 := { st1 with listeners := false }
    let st3 := { st2 with inited := false }
    if st3.hasOnDestroy then { st3 with onDestroyCalls := st3.onDestroyCalls + 1 }
    else st3

/-- The `new Autocomplete(...)` constructor: field initialisation followed
by `init()`.  `inputId` is the externally supplied input element;
generated elements receive identities from `1` upward. -/
def mkState (inputId : Nat) (v0 : String) (vmi : Bool) (items0 : List String)
    (hOnInit hOnDestroy : Bool) : AState :=
  init { inputId := inputId, inputValue := v0, optionsItems := items0
       , valueMatchItem := vmi, hasOnInit := hOnInit, hasOnDestroy := hOnDestroy
       , items := [], itemsWrapperId := 0, panelVisible := false, activeItem := none
       , hasItemsVisible := false, nextId := 1, inited := false, wrapped := false
       , inputClassed := false, listeners := false, captured := []
       , onInitCalls := 0, onDestroyCalls := 0, diagnostics := 0 }

/-- The ancestor walk in `clickOutside`'s listener: `true` iff no element
of `els` occurs on the chain (target followed by its ancestors), i.e. the
callback fires. -/
def outsideChain (els : List Nat) : List Nat → Bool
  | [] => true
  | t :: rest => if els.contains t then false else outsideChain els rest

/-- A document click with the given target-ancestor chain, handled by the
installed `clickOutside` listener; the `Bool` records whether `hideItems`
ran. -/
def docClick (chain : List Nat) (st : AState) : AState × Bool :=
  if outsideChain st.captured chain then (hideItems st, true) else (st, false)

/-!
## `deepMerge`

JS values as seen by `deepMerge` and the configuration-merge claims.
Objects are insertion-ordered own-property lists.
-/

/-- JS values as handled by `deepMerge`. -/
inductive JVal where
  | str : String → JVal
  | num : Int → JVal
  | bool : Bool → JVal
  | null : JVal
  | arr : List JVal → JVal
  | obj : List (String × JVal) → JVal
deriving Repr

/-- `isObject(v)` from `deepMerge`: `v && typeof v === 'object'`.
`typeof null === 'object'` but `null` is falsy; arrays are objects. -/
def isObject : JVal → Bool
  | JVal.arr _ => true
  | JVal.obj _ => true
  | _ => false

/-- `isObject` on a possibly-`undefined` property read
(`isObject(undefined)` is false). -/
def optIsObject : Option JVal → Bool
  | some v => isObject v
  | none => false

/-- `Object.keys(o)` paired with the values (`o[key]`), in property order:
an object's own insertion order, an array's indices, a string's character
indices, nothing for other primitives. -/
def jEntries : JVal → List (String × JVal)
  | JVal.obj kvs => kvs
  | JVal.arr xs => xs.enum.map (fun p => (toString p.1, p.2))
  | JVal.str s => s.data.enum.map (fun p => (toString p.1, JVal.str (String.mk [p.2])))
  | _ => []

/-- `prev[key]` on the accumulator. -/
def getKey (kvs : List (String × JVal)) (k : String) : Option JVal :=
  match kvs.find? (fun p => p.1 = k) with
  | some p => some p.2
  | none => none

/-- `prev[key] = v`: in-place update of an existing property, otherwise
append a new one (JS insertion order). -/
def setKey : List (String × JVal) → String → JVal → List (String × JVal)
  | [], k, v => [(k, v)]
  | p :: t, k, v => if p.1 = k then (k, v) :: t else p :: setKey t k v

/-- `pVal.concat(...oVal)`: spreading `oVal` makes each of its elements an
argument of `concat`, and `concat` splices array arguments one level. -/
def concatSpread (ps os : List JVal) : List JVal :=
  ps ++ os.flatMap (fun v => match v with | JVal.arr ys => ys | x => [x])

mutual

/-- One key of the `forEach` body of `deepMerge`: read `prev[key]`,
branch on `Array.isArray` / `isObject`, write back.  `fuel` bounds the
depth of the nested `deepMerge(pVal, oVal)` call, whose first argument is
read back from the accumulator and hence invisible to Lean's termination
checker; it is immaterial once at least the nesting height of the inputs
(a `none` from exhausted fuel models no JS behaviour). -/
def mergeEntry (fuel : Nat) (prev2 : List (String × JVal)) (kv : String × JVal) :
    Option (List (String × JVal)) :=
  let pVal := getKey prev2 kv.1
  match pVal, kv.2 with
  | some (JVal.arr ps), JVal.arr os =>
      some (setKey prev2 kv.1 (JVal.arr (concatSpread ps os)))
  | _, _ =>
    if optIsObject pVal && isObject kv.2 then
      match pVal with
      | some pv =>
          match fuel with
          | fuel1 + 1 =>
              match deepMergeGo fuel1 [] [pv, kv.2] with
              | some merged => some (setKey prev2 kv.1 (JVal.obj merged))
              | none => none
          | 0 => none
      | none => none
    else some (setKey prev2 kv.1 kv.2)
termination_by (fuel, 1, 0)

/-- The `Object.keys(obj).forEach` loop of `deepMerge`. -/
def mergeEntries (fuel : Nat) (prev : List (String × JVal)) :
    List (String × JVal) → Option (List (String × JVal))
  | [] => some prev
  | kv :: rest =>
      match mergeEntry fuel prev kv with
      | some prev2 => mergeEntries fuel prev2 rest
      | none => none
termination_by l => (fuel, 2, l.length)

/-- The `objects.reduce` of `deepMerge`, accumulator exposed. -/
def deepMergeGo (fuel : Nat) (prev : List (String × JVal)) :
    List JVal → Option (List (String × JVal))
  | [] => some prev
  | o :: rest =>
      match mergeEntries fuel prev (jEntries o) with
      | some prev1 => deepMergeGo fuel prev1 rest
      | none => none
termination_by l => (fuel, 3, l.length)

end

/-- `deepMerge(...objects)` (always returns a plain object). -/
def deepMerge (fuel : Nat) (objects : List JVal) : Option JVal :=
  (deepMergeGo fuel [] objects).map JVal.obj

/-- Scalars: values that are neither sequences nor structures. -/
def isScalar : JVal → Bool
  | JVal.arr _ => false
  | JVal.obj _ => false
  | _ => true

def keyList (kvs : List (String × JVal)) : List String := kvs.map (fun p => p.1)

mutual

/-- Restricted domain for the amended merge claim: sequences hold only
scalars, objects have pairwise-distinct keys and well-behaved values. -/
def good : JVal → Bool
  | JVal.arr xs => xs.all isScalar
  | JVal.obj kvs => decide (keyList kvs).Nodup && goodList kvs
  | _ => true

def goodList : List (String × JVal) → Bool
  | [] => true
  | p :: t => good p.2 && goodList t

end

mutual

/-- No key of `a` collides with a key of `b` at a different shape
(sequence vs structure), recursively. -/
def compat : JVal → JVal → Bool
  | JVal.obj as, JVal.obj bs => compatList as bs
  | JVal.arr _, JVal.arr _ => true
  | JVal.arr _, JVal.obj _ => false
  | JVal.obj _, JVal.arr _ => false
  | _, _ => true
termination_by _a b => sizeOf b

def compatList (as : List (String × JVal)) : List (String × JVal) → Bool
  | [] => true
  | (k, v) :: t =>
      (match getKey as k with
        | some av => compat av v
        | none => true) && compatList as t
termination_by l => sizeOf l
decreasing_by all_goals (simp ; try omega)

end

mutual

/-- Nesting height, used to size the fuel. -/
def jHeight : JVal → Nat
  | JVal.obj kvs => 1 + jHeightList kvs
  | _ => 0

def jHeightList : List (String × JVal) → Nat
  | [] => 0
  | p :: t => max (jHeight p.2) (jHeightList t)

end

mutual

/-- The claimed per-key merged value, on the restricted domain:
concatenate sequences, recursively merge structures (the first object's
keys in their order, then the second's new keys), otherwise the later
value wins. -/
def specMerge : JVal → JVal → JVal
  | JVal.arr ps, JVal.arr os => JVal.arr (ps ++ os)
  | JVal.obj as, JVal.obj bs =>
      JVal.obj (specMergeList as bs
        ++ bs.filter (fun q => !(keyList as).contains q.1))
  | _, b => b
termination_by a _b => sizeOf a

def specMergeList : List (String × JVal) → List (String × JVal) → List (String × JVal)
  | [], _ => []
  | (k, v) :: t, bs =>
      (k, match getKey bs k with
          | some bv => specMerge v bv
          | none => v) :: specMergeList t bs
termination_by l _bs => sizeOf l
decreasing_by all_goals (simp ; try omega)

end

/-- The claimed combination of an existing property and a later value:
`specMerge` when the key is present in the earlier structure, otherwise
the later value itself. -/
def mergeVal (pv : Option JVal) (bv : JVal) : JVal :=
  match pv with
  | some av => specMerge av bv
  | none => bv

/-!
## Spec-side description of arrow-key navigation, events, reachability
-/

/-- The claimed arrow-key transition over the current visible sequence
`vs` (in DOM order), given the id of the active element, if any: move to
the next/previous visible item, wrapping to the first/last when no item is
active or the active item is last/first. -/
def specTarget (dir : Dir) (vs : List Item) (cur : Option Nat) : Option Item :=
  match dir with
  | Dir.down =>
    match cur.bind (fun a => jsIdxN vs a) with
    | some i => if i + 1 < vs.length then vs[i + 1]? else vs[0]?
    | none => vs[0]?
  | Dir.up =>
    match cur.bind (fun a => jsIdxN vs a) with
    | some i => if 0 < i then vs[i - 1]? else vs[vs.length - 1]?
    | none => vs[vs.length - 1]?

/-- Number of item elements currently carrying the `itemActive` class. -/
def activeCount (st : AState) : Nat := (st.items.filter (fun it => it.active)).length

/-- External events an instance can experience: user input (the input
event fires only while the listener is attached, but the value changes
regardless), keydowns, clicks on a generated item, document clicks with a
target-ancestor chain, and the public API calls. -/
inductive Ev where
  | input (s : String)
  | key (k : String)
  | click (i : Nat)
  | doc (chain : List Nat)
  | setInputOp (s : String)
  | setItemsOp (l : List String)
  | showOp
  | hideOp
  | initOp
  | destroyOp

/-- One event, as the handlers wired by `addEvents` process it; `none`
models a thrown `TypeError`. -/
def step : Ev → AState → Option AState
  | Ev.input s, st =>
      let st1 := { st with inputValue := s }
      some (if st.listeners then handleInput st1 else st1)
  | Ev.key k, st => if st.listeners then handleKeydown k st else some st
  | Ev.click i, st =>
      match st.items[i]? with
      | some it => some (if st.wrapped then handleItemClick it.text st else st)
      | none => some st
  | Ev.doc chain, st => some (if st.listeners then (docClick chain st).1 else st)
  | Ev.setInputOp s, st => some (setInput s st)
  | Ev.setItemsOp l, st => some (setItems l st)
  | Ev.showOp, st => some (showItems st)
  | Ev.hideOp, st => some (hideItems st)
  | Ev.initOp, st => some (init st)
  | Ev.destroyOp, st => some (destroy st)

/-- States reachable from construction by any event sequence. -/
inductive Reachable : AState → Prop
  | base (inputId : Nat) (v0 : String) (vmi : Bool) (items0 : List String)
      (h1 h2 : Bool) : Reachable (mkState inputId v0 vmi items0 h1 h2)
  | next {st st1 : AState} (e : Ev) : Reachable st → step e st = some st1 →
      Reachable st1

/-!
## Concrete runs used by counterexamples and witnesses
-/

/-- Construction with items apple/banana/cherry, empty input. -/
def runA0 : AState := mkState 0 "" false ["apple", "banana", "cherry"] false false

/-- ... the user types `"a"` (apple and banana stay visible). -/
def runA1 : AState := handleInput { runA0 with inputValue := "a" }

/-- ... ArrowDown highlights apple. -/
def runA2 : AState := (handleKeydown "ArrowDown" runA1).getD runA1

/-- ... the user types `"an"`: only banana is visible, the active element
(apple) has left the visible sequence. -/
def runA3 : AState := handleInput { runA2 with inputValue := "an" }

/-- ... or instead types `"az"`: nothing matches, the panel class is
still present but `temp.hasItemsVisible` is false, apple stays active. -/
def runA4 : AState := handleInput { runA2 with inputValue := "az" }

/-- From `runA2`, the host calls `setItems(["One","Two"])`. -/
def runB1 : AState := setItems ["One", "Two"] runA2

/-- ... and the user types `"o"`. -/
def runB2 : AState := handleInput { runB1 with inputValue := "o" }

/-- Well-formedness carried by every reachable state: distinct element
identities below the id counter, and at most one `itemActive` class. -/
def StateOk (st : AState) : Prop :=
  (st.items.map Item.id).Nodup
  ∧ (∀ it ∈ st.items, it.id < st.nextId)
  ∧ activeCount st ≤ 1

/-!
## Helper lemmas
-/

/-- Structural form of `hideItems`. -/
theorem hideItems_eq (st : AState) :
    hideItems st =
      { st with
        panelVisible := false
        , items := st.items.map (fun it => { it with active := false })
        , activeItem := none
        , inputValue :=
            if st.valueMatchItem then
              (if st.items.any (fun it => lower it.text == lower st.inputValue)
               then st.inputValue else "")
            else st.inputValue } := by
  unfold hideItems clearActiveItemStyles
  by_cases h : st.valueMatchItem <;>
    by_cases hm : st.items.any (fun it => lower it.text == lower st.inputValue) <;>
      simp_all [List.any_map, Function.comp]
  rw [if_neg]
  rintro ⟨x, hx, he⟩
  exact hm x hx he

theorem lower_eq_empty_iff (s : String) : lower s = "" ↔ s = "" := by
  cases s with
  | mk d => simp [lower, String.ext_iff]

/-- Structural form of `handleInput`. -/
theorem handleInput_eq (st : AState) :
    handleInput st =
      if st.inputValue = "" then
        { hideItems st with
          items := (hideItems st).items.map
            (fun it => { it with visible := strContains (lower it.text) (lower st.inputValue) })
          , hasItemsVisible :=
              st.items.any (fun it => strContains (lower it.text) (lower st.inputValue)) }
      else
        { showItems st with
          items := st.items.map
            (fun it => { it with visible := strContains (lower it.text) (lower st.inputValue) })
          , hasItemsVisible :=
              st.items.any (fun it => strContains (lower it.text) (lower st.inputValue)) } := by
  unfold handleInput
  by_cases h : st.inputValue = ""
  · have hl : lower st.inputValue = "" := (lower_eq_empty_iff _).mpr h
    simp [h, hl, hideItems_eq, List.map_map, List.any_map, Function.comp, Function.comp_def,
      show lower "" = "" from rfl]
  · have hl : ¬ lower st.inputValue = "" := fun hh => h ((lower_eq_empty_iff _).mp hh)
    simp [h, hl, showItems, List.any_map, Function.comp_def]

theorem visibleItems_clear (st : AState) :
    visibleItems (clearActiveItemStyles st)
      = (visibleItems st).map (fun it => { it with active := false }) := by
  unfold visibleItems clearActiveItemStyles
  simp [List.filter_map, Function.comp_def]

theorem jsIdxN_map_clr (l : List Item) (aid : Nat) :
    jsIdxN (l.map (fun it => { it with active := false })) aid = jsIdxN l aid := by
  induction l with
  | nil => rfl
  | cons a t ih => by_cases h : a.id = aid <;> simp [jsIdxN, h, ih]

theorem jsIdxN_of_getElem (l : List Item) (i : Nat) (it : Item)
    (hnd : (l.map Item.id).Nodup) (hget : l[i]? = some it) :
    jsIdxN l it.id = some i := by
  induction l generalizing i with
  | nil => simp at hget
  | cons a t ih =>
    cases i with
    | zero =>
      simp at hget
      subst hget
      simp [jsIdxN]
    | succ n =>
      simp at hget
      have hmem : it ∈ t := List.mem_iff_getElem?.mpr ⟨n, hget⟩
      have hne : ¬ a.id = it.id := by
        intro he
        simp at hnd
        exact hnd.1 it hmem he.symm
      have ht : (t.map Item.id).Nodup := by
        simp at hnd
        exact hnd.2
      simp [jsIdxN, hne, ih n ht hget]

theorem jsGet_ofNat (l : List Item) (i : Nat) : jsGet l (i : Int) = l[i]? := by
  simp [jsGet]

theorem jsGet_map_clr (l : List Item) (i : Int) :
    jsGet (l.map (fun it => { it with active := false })) i
      = (jsGet l i).map (fun it => { it with active := false }) := by
  unfold jsGet
  by_cases h : 0 ≤ i <;> simp [h, List.getElem?_map]

theorem mark_clear_map (l : List Item) (aid : Nat) :
    (l.map (fun it => { it with active := false })).map
        (fun j => if j.id = aid then { j with active := true } else j)
      = l.map (fun j => { j with active := decide (j.id = aid) }) := by
  induction l with
  | nil => rfl
  | cons a t ih => by_cases h : a.id = aid <;> simp [h, ih]

theorem jsGet_len_sub_one (l : List Item) (h : l ≠ []) :
    jsGet l ((l.length : Int) - 1) = l[l.length - 1]? := by
  have : 0 < l.length := List.length_pos.mpr h
  unfold jsGet
  rw [if_pos (by omega)]
  congr 1
  omega

theorem jsGet_add_one (l : List Item) (i : Nat) : jsGet l ((i : Int) + 1) = l[i + 1]? := by
  have h : ((i : Int) + 1).toNat = i + 1 := by omega
  unfold jsGet
  rw [if_pos (by omega), h]

theorem jsGet_sub_one (l : List Item) (i : Nat) (h : 0 < i) :
    jsGet l ((i : Int) - 1) = l[i - 1]? := by
  have h2 : ((i : Int) - 1).toNat = i - 1 := by omega
  unfold jsGet
  rw [if_pos (by omega), h2]

theorem clearActive_activeItem (st : AState) :
    (clearActiveItemStyles st).activeItem = st.activeItem := rfl

theorem handleArrowKey_spec (st : AState) (dir : Dir)
    (hnd : ((visibleItems st).map Item.id).Nodup)
    (hne : visibleItems st ≠ [])
    (hact : ∀ r, st.activeItem = some r → r.id ∈ (visibleItems st).map Item.id) :
    ∃ it : Item,
      specTarget dir (visibleItems st) (st.activeItem.map ItemRef.id) = some it ∧
      handleArrowKey dir st = some { st with
        activeItem := some ⟨it.id, it.text⟩
        , items := st.items.map (fun j => { j with active := decide (j.id = it.id) }) } := by
  have hlen : 0 < (visibleItems st).length := List.length_pos.mpr hne
  have h0 := List.getElem?_eq_getElem hlen
  have hlast := List.getElem?_eq_getElem (l := visibleItems st)
    (n := (visibleItems st).length - 1) (by omega)
  have hlen1 : ((visibleItems st).map
      (fun it => { it with active := false })).length = (visibleItems st).length := by
    simp
  cases hA : st.activeItem with
  | none =>
    cases dir with
    | down =>
      refine ⟨(visibleItems st)[0], ?_, ?_⟩
      · simp [specTarget, hA, h0]
      · simp only [handleArrowKey, clearActive_activeItem, hA, visibleItems_clear,
          jsGet_map_clr, hlen1]
        simp [clearActiveItemStyles, h0, mark_clear_map, jsGet, -List.map_map]
    | up =>
      refine ⟨(visibleItems st)[(visibleItems st).length - 1], ?_, ?_⟩
      · simp [specTarget, hA, hlast]
      · simp only [handleArrowKey, clearActive_activeItem, hA, visibleItems_clear,
          jsGet_map_clr, hlen1, jsGet_len_sub_one _ hne]
        simp [clearActiveItemStyles, hlast, mark_clear_map, -List.map_map]
  | some r =>
    obtain ⟨a, hmem, haid⟩ := List.mem_map.mp (hact r hA)
    obtain ⟨i, hai⟩ := List.mem_iff_getElem?.mp hmem
    have hilen : i < (visibleItems st).length := by
      rcases List.getElem?_eq_some.mp hai with ⟨h, _⟩
      exact h
    have hidx : jsIdxN (visibleItems st) r.id = some i := by
      have h1 := jsIdxN_of_getElem (visibleItems st) i a hnd hai
      rwa [haid] at h1
    have hgi : (visibleItems st)[i]? = some (visibleItems st)[i] :=
      List.getElem?_eq_getElem hilen
    have hia : (visibleItems st)[i] = a := by
      rw [hgi] at hai
      exact Option.some.inj hai
    have hidx1 : jsIdx ((visibleItems st).map
        (fun it => { it with active := false })) r.id = (i : Int) := by
      simp [jsIdx, jsIdxN_map_clr, hidx]
    cases dir with
    | down =>
      by_cases hL : i = (visibleItems st).length - 1
      · have hlastid : (visibleItems st)[(visibleItems st).length - 1].id = r.id := by
          have h1 : (visibleItems st)[(visibleItems st).length - 1]? = some a := by
            rw [← hL]
            exact hai
          rw [hlast] at h1
          rw [Option.some.inj h1, haid]
        refine ⟨(visibleItems st)[0], ?_, ?_⟩
        · simp [specTarget, hA, hidx, h0]
          intro hcon
          exact absurd hcon (by omega)
        · simp only [handleArrowKey, clearActive_activeItem, hA, visibleItems_clear,
            jsGet_map_clr, hlen1, jsGet_len_sub_one _ hne]
          simp [clearActiveItemStyles, hlast, hlastid, h0, mark_clear_map, jsGet,
            -List.map_map]
      · have hneq : (visibleItems st)[(visibleItems st).length - 1].id ≠ r.id := by
          intro he
          have h1 : ((visibleItems st).map Item.id)[i]? = some r.id := by
            simp [List.getElem?_map, hai, haid]
          have h2 : ((visibleItems st).map Item.id)[(visibleItems st).length - 1]? =
              some r.id := by
            simp [List.getElem?_map, hlast, he]
          exact hL (List.getElem?_inj (by simpa using hilen) hnd (h1.trans h2.symm))
        have hsucc : i + 1 < (visibleItems st).length := by omega
        have hnext := List.getElem?_eq_getElem hsucc
        refine ⟨(visibleItems st)[i + 1], ?_, ?_⟩
        · simp [specTarget, hA, hidx, hsucc, hnext]
        · simp only [handleArrowKey, clearActive_activeItem, hA, visibleItems_clear,
            jsGet_map_clr, hlen1, jsGet_len_sub_one _ hne]
          simp only [hidx1, jsGet_add_one]
          simp [clearActiveItemStyles, hlast, hneq, hnext, mark_clear_map,
            -List.map_map]
    | up =>
      by_cases hF : i = 0
      · have hfirstid : (visibleItems st)[0].id = r.id := by
          have h1 : (visibleItems st)[0]? = some a := by
            rw [← hF]
            exact hai
          rw [h0] at h1
          rw [Option.some.inj h1, haid]
        refine ⟨(visibleItems st)[(visibleItems st).length - 1], ?_, ?_⟩
        · simp [specTarget, hA, hidx, hF, hlast]
        · simp only [handleArrowKey, clearActive_activeItem, hA, visibleItems_clear,
            jsGet_map_clr, hlen1, jsGet_len_sub_one _ hne]
          simp [clearActiveItemStyles, hlast, hfirstid, h0, mark_clear_map, jsGet,
            -List.map_map]
      · have hneq : (visibleItems st)[0].id ≠ r.id := by
          intro he
          have h1 : ((visibleItems st).map Item.id)[i]? = some r.id := by
            simp [List.getElem?_map, hai, haid]
          have h2 : ((visibleItems st).map Item.id)[0]? = some r.id := by
            simp [List.getElem?_map, h0, he]
          exact hF (List.getElem?_inj (by simpa using hilen) hnd (h1.trans h2.symm))
        have hpos : 0 < i := by omega
        have hprev := List.getElem?_eq_getElem
          (l := visibleItems st) (n := i - 1) (by omega)
        refine ⟨(visibleItems st)[i - 1], ?_, ?_⟩
        · simp [specTarget, hA, hidx, hpos, hprev]
        · simp only [handleArrowKey, clearActive_activeItem, hA, visibleItems_clear,
            jsGet_map_clr, hlen1]
          simp only [hidx1, jsGet_sub_one _ _ hpos]
          simp [clearActiveItemStyles, hneq, h0, hprev, mark_clear_map, jsGet,
            -List.map_map]


theorem setInput_parts (st : AState) (v : String) :
    (setInput v st).panelVisible = false
    ∧ (setInput v st).activeItem = none
    ∧ ((setInput v st).items.map (fun it => (it.id, it.text, it.visible))
        = st.items.map (fun it => (it.id, it.text, strContains (lower it.text) (lower v))))
    ∧ (setInput v st).inputValue =
        (if st.valueMatchItem then
          (if st.items.any (fun it => lower it.text == lower v) then v else "")
         else v) := by
  unfold setInput
  rw [handleInput_eq]
  by_cases h : v = ""
  · subst h
    simp only [show ({ st with inputValue := "" } : AState).inputValue = "" from rfl,
      if_pos rfl]
    rw [hideItems_eq, hideItems_eq]
    by_cases hv : st.valueMatchItem <;>
      by_cases hm : st.items.any (fun it => lower it.text == lower "") <;>
        simp_all [List.map_map, List.any_map, Function.comp_def,
          show lower "" = "" from rfl]
  · simp only [show ({ st with inputValue := v } : AState).inputValue = v from rfl,
      if_neg h]
    rw [hideItems_eq]
    by_cases hv : st.valueMatchItem <;>
      by_cases hm : st.items.any (fun it => lower it.text == lower v) <;>
        simp_all [showItems, List.map_map, List.any_map, Function.comp_def]

theorem specTarget_mem (dir : Dir) (vs : List Item) (cur : Option Nat) (it : Item)
    (h : specTarget dir vs cur = some it) : it ∈ vs := by
  unfold specTarget at h
  cases dir <;> cases hm : cur.bind (fun a => jsIdxN vs a) <;> simp [hm] at h
  · exact List.mem_iff_getElem?.mpr ⟨vs.length - 1, h⟩
  · rename_i i
    split at h
    · exact List.mem_iff_getElem?.mpr ⟨i - 1, h⟩
    · exact List.mem_iff_getElem?.mpr ⟨vs.length - 1, h⟩
  · exact List.mem_iff_getElem?.mpr ⟨0, h⟩
  · rename_i i
    split at h
    · exact List.mem_iff_getElem?.mpr ⟨i + 1, h⟩
    · exact List.mem_iff_getElem?.mpr ⟨0, h⟩

-- C2 claim theorem
/-- C2: while `isShownWithItems()` holds (with at least one visible item,
distinct element identities, and an active item that is absent or still in
the visible sequence), an ArrowDown keydown moves the active item to the
next visible item in DOM order, wrapping to the first when none is active
or the active item is last; ArrowUp symmetrically moves to the previous or
wraps to the last.  When `isShownWithItems()` is false these keys change
nothing. -/
theorem arrow_key_navigation (st : AState) (dir : Dir)
    (hnd : ((visibleItems st).map Item.id).Nodup)
    (hshown : isShownWithItems st = true)
    (hne : visibleItems st ≠ [])
    (hact : ∀ r, st.activeItem = some r → r.id ∈ (visibleItems st).map Item.id) :
    (∃ st1, handleKeydown (match dir with | Dir.up => "ArrowUp" | Dir.down => "ArrowDown") st
        = some st1
      ∧ st1.activeItem = (specTarget dir (visibleItems st)
          (st.activeItem.map ItemRef.id)).map (fun it => ItemRef.mk it.id it.text))
    ∧ (∀ st2 : AState, ∀ k : String, isShownWithItems st2 = false →
        handleKeydown k st2 = some st2) := by
  constructor
  · obtain ⟨it, hspec, heq⟩ := handleArrowKey_spec st dir hnd hne hact
    refine ⟨{ st with
        activeItem := some ⟨it.id, it.text⟩
        , items := st.items.map
            (fun j => { j with active := decide (j.id = it.id) }) }, ?_, ?_⟩
    · unfold handleKeydown
      rw [if_pos hshown]
      cases dir <;> exact heq
    · rw [hspec]
      rfl
  · intro st2 k h
    unfold handleKeydown
    rw [if_neg]
    simp [h]

-- C3 amended
/-- C3 (amended): an ArrowUp/ArrowDown handled while a visible item
exists assigns a defined item element and applies the highlight class to
it, PROVIDED the previously-active item is none or still in the visible
sequence.  (Without that proviso the claim is false: see the
counterexample, where ArrowUp reads `items[-2]` and throws.) -/
theorem handleArrowKey_safe_when_active_visible (st : AState) (dir : Dir)
    (hnd : ((visibleItems st).map Item.id).Nodup)
    (hne : visibleItems st ≠ [])
    (hact : ∀ r, st.activeItem = some r → r.id ∈ (visibleItems st).map Item.id) :
    ∃ st1 it, handleArrowKey dir st = some st1
      ∧ it ∈ visibleItems st
      ∧ st1.activeItem = some (ItemRef.mk it.id it.text)
      ∧ st1.items = st.items.map (fun j => { j with active := decide (j.id = it.id) }) := by
  obtain ⟨it, hspec, heq⟩ := handleArrowKey_spec st dir hnd hne hact
  exact ⟨_, it, heq, specTarget_mem dir _ _ it hspec, rfl, rfl⟩

-- C3 counterexample
/-- C3 counterexample: in the reachable state `runA3` the panel is shown
with items, the active element (apple) is no longer visible, and ArrowUp
evaluates `items[-1 - 1]`, i.e. `undefined`, so applying the highlight
class throws (modelled as `none`). -/
theorem arrowUp_stale_active_crash_cex :
    isShownWithItems runA3 = true ∧ runA3.activeItem = some ⟨2, "apple"⟩
    ∧ (∀ it ∈ visibleItems runA3, it.id ≠ 2)
    ∧ handleKeydown "ArrowUp" runA3 = none := by
  refine ⟨rfl, rfl, ?_, rfl⟩
  decide

-- C2 witness
theorem arrow_key_navigation_witness :
    ∃ st1, handleKeydown "ArrowDown" runA2 = some st1
      ∧ st1.activeItem = some ⟨3, "banana"⟩ := by
  have h := (arrow_key_navigation runA2 Dir.down (by decide) (by decide) (by decide)
    (by intro r hr
        rw [show runA2.activeItem = some ⟨2, "apple"⟩ from rfl] at hr
        cases hr
        decide)).1
  obtain ⟨st1, h1, h2⟩ := h
  exact ⟨st1, h1, by rw [h2]; rfl⟩

-- C3 witness
theorem handleArrowKey_safe_witness :
    ∃ st1 it, handleArrowKey Dir.up runA2 = some st1
      ∧ it ∈ visibleItems runA2
      ∧ st1.activeItem = some (ItemRef.mk it.id it.text)
      ∧ st1.items = runA2.items.map (fun j => { j with active := decide (j.id = it.id) }) := by
  exact handleArrowKey_safe_when_active_visible runA2 Dir.up (by decide) (by decide)
    (by intro r hr
        rw [show runA2.activeItem = some ⟨2, "apple"⟩ from rfl] at hr
        cases hr
        decide)

-- C5 claim theorem (amended: Enter needs isShownWithItems)
/-- C5 (amended): `setInput(t)` leaves the panel hidden, the active item
cleared, item visibility recomputed against `t`, and the input text `t`
(unless `valueMatchItem` clears it); an Enter keydown commits the active
item's text through `setInput` PROVIDED `isShownWithItems()` is true (the
original claim omitted the guard - see the counterexample); a click on an
item commits its text through `setInput`. -/
theorem setInput_commit_spec :
    (∀ st v, (setInput v st).panelVisible = false
      ∧ (setInput v st).activeItem = none
      ∧ ((setInput v st).items.map (fun it => (it.id, it.text, it.visible))
          = st.items.map (fun it => (it.id, it.text, strContains (lower it.text) (lower v))))
      ∧ (setInput v st).inputValue =
          (if st.valueMatchItem then
            (if st.items.any (fun it => lower it.text == lower v) then v else "")
           else v))
    ∧ (∀ st r, isShownWithItems st = true → st.activeItem = some r →
        handleKeydown "Enter" st = some (setInput r.text st))
    ∧ (∀ t st, handleItemClick t st = setInput t st) := by
  refine ⟨setInput_parts, ?_, fun t st => rfl⟩
  intro st r hshown hact
  unfold handleKeydown
  rw [if_pos hshown, hact]
  rfl

-- C5 counterexample
/-- C5 counterexample: in the reachable state `runA4` an active item
exists but `isShownWithItems()` is false, so Enter commits nothing and the
input text stays `"az"`. -/
theorem enter_inert_with_active_cex :
    runA4.activeItem = some ⟨2, "apple"⟩
    ∧ isShownWithItems runA4 = false
    ∧ handleKeydown "Enter" runA4 = some runA4
    ∧ runA4.inputValue = "az" := ⟨rfl, rfl, rfl, rfl⟩

-- C5 witness
theorem setInput_commit_spec_witness :
    handleKeydown "Enter" runA2 = some (setInput "apple" runA2)
    ∧ (setInput "apple" runA2).inputValue = "apple" := by
  constructor
  · exact setInput_commit_spec.2.1 runA2 ⟨2, "apple"⟩ (by decide) rfl
  · exact ((setInput_commit_spec.1 runA2 "apple").2.2.2).trans (by decide)

theorem genItems_texts (n : Nat) (l : List String) :
    (genItems n l).map Item.text = l := by
  induction l generalizing n with
  | nil => rfl
  | cons t ts ih => simp [genItems, ih]

theorem genItems_flags (n : Nat) (l : List String) :
    ∀ it ∈ genItems n l, it.visible = true ∧ it.active = false := by
  induction l generalizing n with
  | nil => intro it h; cases h
  | cons t ts ih =>
    intro it h
    rw [genItems, List.mem_cons] at h
    rcases h with rfl | h
    · exact ⟨rfl, rfl⟩
    · exact ih (n + 1) it h

theorem genItems_ids (n : Nat) (l : List String) :
    ∀ it ∈ genItems n l, n ≤ it.id ∧ it.id < n + l.length := by
  induction l generalizing n with
  | nil => intro it h; cases h
  | cons t ts ih =>
    intro it h
    rw [genItems, List.mem_cons] at h
    rcases h with rfl | h
    · simp
    · have := ih (n + 1) it h
      constructor
      · omega
      · simp only [List.length_cons]
        omega

theorem genItems_nodup (n : Nat) (l : List String) :
    ((genItems n l).map Item.id).Nodup := by
  induction l generalizing n with
  | nil => exact List.nodup_nil
  | cons t ts ih =>
    simp only [genItems, List.map_cons, List.nodup_cons]
    refine ⟨?_, ih (n + 1)⟩
    intro hmem
    obtain ⟨it, hit, hid⟩ := List.mem_map.mp hmem
    have := genItems_ids (n + 1) ts it hit
    omega

theorem genItems_map_text (n : Nat) (l : List String) {b : Type} (f : Item → b)
    (g : String → b) (hf : ∀ it, f it = g it.text) :
    (genItems n l).map f = l.map g := by
  induction l generalizing n with
  | nil => rfl
  | cons t ts ih => simp [genItems, hf, ih]

-- C7 amended claim theorem
/-- C7 (amended): `setItems(newItems)` discards the old container and
item elements (fresh identities disjoint from every previous one),
regenerates one visible, non-highlighted element per string, and
subsequent filtering matches only against `newItems`; however the stale
`elements.activeItem` reference is retained, not cleared (see the
counterexample). -/
theorem setItems_regeneration (st : AState) (l : List String)
    (hids : ∀ it ∈ st.items, it.id < st.nextId) :
    ((setItems l st).items.map Item.text = l)
    ∧ (∀ it ∈ (setItems l st).items, it.visible = true ∧ it.active = false)
    ∧ (setItems l st).optionsItems = l
    ∧ (setItems l st).panelVisible = false
    ∧ (∀ it ∈ (setItems l st).items, ∀ it2 ∈ st.items, it.id ≠ it2.id)
    ∧ (setItems l st).activeItem = st.activeItem
    ∧ (∀ s, (handleInput { setItems l st with inputValue := s }).items.map
          (fun it => (it.text, it.visible))
        = l.map (fun t => (t, strContains (lower t) (lower s)))) := by
  refine ⟨genItems_texts _ _, genItems_flags _ _, rfl, rfl, ?_, rfl, ?_⟩
  · intro it hit it2 hit2
    have h1 := genItems_ids (st.nextId + 1) l it hit
    have h2 := hids it2 hit2
    omega
  · intro s
    rw [handleInput_eq]
    by_cases h : s = ""
    · rw [show ({ setItems l st with inputValue := s } : AState).inputValue = s from rfl,
        if_pos h, hideItems_eq]
      simp only [List.map_map]
      rw [show ({ setItems l st with inputValue := s } : AState).items
          = genItems (st.nextId + 1) l from rfl]
      exact genItems_map_text _ _ _ _ (fun it => rfl)
    · rw [show ({ setItems l st with inputValue := s } : AState).inputValue = s from rfl,
        if_neg h]
      simp only [List.map_map]
      rw [show ({ setItems l st with inputValue := s } : AState).items
          = genItems (st.nextId + 1) l from rfl]
      exact genItems_map_text _ _ _ _ (fun it => rfl)

-- C7 counterexample
/-- C7 counterexample: after `setItems(["One","Two"])` in `runA2` the
active-item reference still points at the detached apple element, and a
later Enter (with the panel shown over the new items) commits `"apple"`,
a text not in the new item list - the in-progress active state is NOT
lost. -/
theorem setItems_keeps_stale_active_cex :
    runA2.activeItem = some ⟨2, "apple"⟩
    ∧ runB1.activeItem = some ⟨2, "apple"⟩
    ∧ (∀ it ∈ runB1.items, it.id ≠ 2)
    ∧ runB1.items.map Item.text = ["One", "Two"]
    ∧ isShownWithItems runB2 = true
    ∧ handleKeydown "Enter" runB2 = some (setInput "apple" runB2)
    ∧ (setInput "apple" runB2).inputValue = "apple" := by
  refine ⟨rfl, rfl, ?_, rfl, rfl, rfl, rfl⟩
  decide

-- C7 witness
theorem setItems_regeneration_witness :
    ((setItems ["One", "Two"] runA2).items.map Item.text = ["One", "Two"])
    ∧ (setItems ["One", "Two"] runA2).panelVisible = false
    ∧ (setItems ["One", "Two"] runA2).activeItem = runA2.activeItem := by
  have h := setItems_regeneration runA2 ["One", "Two"] (by decide)
  exact ⟨h.1, h.2.2.2.1, h.2.2.2.2.2.1⟩

-- C9 helpers
theorem outsideChain_iff (els chain : List Nat) :
    outsideChain els chain = true ↔ ∀ n ∈ chain, n ∉ els := by
  induction chain with
  | nil => simp [outsideChain]
  | cons c t ih =>
    unfold outsideChain
    by_cases h : els.contains c
    · have hc : c ∈ els := List.elem_iff.mp h
      simp [h, hc]
    · have hc : c ∉ els := fun hm => h (List.elem_iff.mpr hm)
      simp [h, ih, hc]

theorem hideItems_listeners (st : AState) :
    (hideItems st).listeners = st.listeners := by
  rw [hideItems_eq]

theorem handleInput_listeners (st : AState) :
    (handleInput st).listeners = st.listeners := by
  rw [handleInput_eq]
  split
  · exact hideItems_listeners st
  · rfl

theorem hideItems_captured (st : AState) :
    (hideItems st).captured = st.captured := by
  rw [hideItems_eq]

theorem handleInput_captured (st : AState) :
    (handleInput st).captured = st.captured := by
  rw [handleInput_eq]
  split
  · exact hideItems_captured st
  · rfl

-- C9 amended claim theorem
/-- C9 (amended): the outside-click listener ignores a click whose
target-ancestor chain meets the element list CAPTURED at installation
time (the input and the items-container of that moment), and hides the
panel otherwise; it is installed by `init` and removed by `destroy`.
(The original claim - comparing against the widget's CURRENT
items-container - is false after `setItems`: see the counterexample.) -/
theorem clickOutside_captured_behavior :
    (∀ st chain, (∃ n ∈ chain, n ∈ st.captured) → docClick chain st = (st, false))
    ∧ (∀ st chain, (∀ n ∈ chain, n ∉ st.captured) →
        docClick chain st = (hideItems st, true))
    ∧ (∀ st, st.inited = false → (init st).listeners = true
        ∧ (init st).captured = [st.inputId, (generateHTMLSt st).itemsWrapperId])
    ∧ (∀ st, st.inited = true → (destroy st).listeners = false) := by
  refine ⟨?_, ?_, ?_, ?_⟩
  · intro st chain h
    obtain ⟨n, hn, hc⟩ := h
    unfold docClick
    rw [if_neg]
    intro hout
    exact absurd hc ((outsideChain_iff _ _).mp hout n hn)
  · intro st chain h
    unfold docClick
    rw [if_pos ((outsideChain_iff _ _).mpr h)]
  · intro st h
    simp only [init, h, Bool.false_eq_true, if_false]
    constructor
    · split <;> split <;> simp_all [handleInput_listeners] <;> rfl
    · split <;> split <;> simp_all [handleInput_captured] <;> rfl
  · intro st h
    simp only [destroy, h, Bool.not_true]
    rw [if_neg (by simp)]
    split <;> rfl

-- C9 counterexample
/-- C9 counterexample: in the reachable state `runB1` (after
`setItems`), a click inside the new items-container (chain `[6, 5]`) is
treated as outside - the listener still compares against the captured
old container - and hides the panel, observably clearing the active
reference. -/
theorem clickOutside_stale_capture_cex :
    runB1.itemsWrapperId = 5
    ∧ runB1.captured = [0, 1]
    ∧ runB1.items.map Item.id = [6, 7]
    ∧ docClick [6, 5] runB1 = (hideItems runB1, true)
    ∧ runB1.activeItem = some ⟨2, "apple"⟩
    ∧ (docClick [6, 5] runB1).1.activeItem = none := ⟨rfl, rfl, rfl, rfl, rfl, rfl⟩

-- C9 witness
theorem clickOutside_captured_witness :
    docClick [0] runA1 = (runA1, false)
    ∧ docClick [9] runA1 = (hideItems runA1, true)
    ∧ (init { runA0 with inited := false, listeners := false }).listeners = true
    ∧ (destroy runA1).listeners = false := by
  refine ⟨?_, ?_, ?_, ?_⟩
  · exact clickOutside_captured_behavior.1 runA1 [0] ⟨0, by decide, by decide⟩
  · exact clickOutside_captured_behavior.2.1 runA1 [9] (by decide)
  · exact (clickOutside_captured_behavior.2.2.1 _ rfl).1
  · exact clickOutside_captured_behavior.2.2.2 runA1 rfl

theorem mapPres_ids (l : List Item) (f : Item → Item) (hf : ∀ it, (f it).id = it.id) :
    (l.map f).map Item.id = l.map Item.id := by
  rw [List.map_map]
  exact List.map_congr_left (fun a _ => hf a)

theorem mapPres_activeCount (l : List Item) (f : Item → Item)
    (hf : ∀ it, (f it).active = it.active) :
    ((l.map f).filter (fun it => it.active)).length
      = (l.filter (fun it => it.active)).length := by
  rw [List.filter_map, List.length_map]
  congr 1
  exact List.filter_congr (fun a _ => by simp [Function.comp, hf])

theorem clr_activeCount (l : List Item) :
    ((l.map (fun it => { it with active := false })).filter
      (fun it => it.active)).length = 0 := by
  simp [List.filter_eq_nil_iff, List.length_eq_zero]

theorem count_id_le_one (l : List Item) (aid : Nat) (hnd : (l.map Item.id).Nodup) :
    (l.filter (fun j => j.id == aid)).length ≤ 1 := by
  induction l with
  | nil => simp
  | cons a t ih =>
    simp only [List.map_cons, List.nodup_cons] at hnd
    by_cases h : a.id = aid
    · have ht : (t.filter (fun j => j.id == aid)).length = 0 := by
        simp only [List.length_eq_zero, List.filter_eq_nil_iff]
        intro b hb hbid
        have hbid2 : b.id = aid := by simpa using hbid
        exact hnd.1 (List.mem_map.mpr ⟨b, hb, by rw [hbid2, h]⟩)
      simp [List.filter_cons, h, ht]
    · simp [List.filter_cons, h]
      exact ih hnd.2

theorem hideItems_items (st : AState) :
    (hideItems st).items = st.items.map (fun it => { it with active := false }) := by
  rw [hideItems_eq]

theorem hideItems_nextId (st : AState) : (hideItems st).nextId = st.nextId := by
  rw [hideItems_eq]

theorem handleInput_items (st : AState) :
    (handleInput st).items
      = (if st.inputValue = "" then st.items.map (fun it => { it with active := false })
         else st.items).map
          (fun it => { it with visible := strContains (lower it.text) (lower st.inputValue) }) := by
  rw [handleInput_eq]
  split
  · dsimp only
    rw [hideItems_items]
  · rfl

theorem handleInput_nextId (st : AState) : (handleInput st).nextId = st.nextId := by
  rw [handleInput_eq]
  split
  · exact hideItems_nextId st
  · rfl

theorem ids_map_clr (l : List Item) :
    (l.map (fun it => { it with active := false })).map Item.id = l.map Item.id :=
  mapPres_ids l _ (fun _ => rfl)

theorem ids_map_setVis (l : List Item) (g : Item → Bool) :
    (l.map (fun it => { it with visible := g it })).map Item.id = l.map Item.id :=
  mapPres_ids l _ (fun _ => rfl)

theorem ids_map_mark (l : List Item) (aid : Nat) :
    (l.map (fun j => { j with active := decide (j.id = aid) })).map Item.id
      = l.map Item.id :=
  mapPres_ids l _ (fun _ => rfl)

theorem activeCount_map_setVis (l : List Item) (g : Item → Bool) :
    ((l.map (fun it => { it with visible := g it })).filter
        (fun it => it.active)).length
      = (l.filter (fun it => it.active)).length :=
  mapPres_activeCount l _ (fun _ => rfl)

theorem stateOk_hideItems (st : AState) (h : StateOk st) : StateOk (hideItems st) := by
  obtain ⟨h1, h2, h3⟩ := h
  refine ⟨?_, ?_, ?_⟩
  · rw [hideItems_items, ids_map_clr]
    exact h1
  · intro it hit
    rw [hideItems_items] at hit
    obtain ⟨j, hj, rfl⟩ := List.mem_map.mp hit
    rw [hideItems_nextId]
    exact h2 j hj
  · unfold activeCount
    rw [hideItems_items, clr_activeCount]
    omega

theorem stateOk_showItems (st : AState) (h : StateOk st) : StateOk (showItems st) := h

theorem stateOk_handleInput (st : AState) (h : StateOk st) : StateOk (handleInput st) := by
  obtain ⟨h1, h2, h3⟩ := h
  refine ⟨?_, ?_, ?_⟩
  · rw [handleInput_items]
    split <;> rw [ids_map_setVis]
    · rw [ids_map_clr]
      exact h1
    · exact h1
  · intro it hit
    rw [handleInput_items] at hit
    rw [handleInput_nextId]
    split at hit <;> obtain ⟨j, hj, rfl⟩ := List.mem_map.mp hit
    · obtain ⟨j2, hj2, rfl⟩ := List.mem_map.mp hj
      exact h2 j2 hj2
    · exact h2 j hj
  · unfold activeCount
    rw [handleInput_items]
    split
    · rw [activeCount_map_setVis, clr_activeCount]
      omega
    · rw [activeCount_map_setVis]
      exact h3

theorem handleArrowKey_some_shape (dir : Dir) (st st1 : AState)
    (h : handleArrowKey dir st = some st1) :
    ∃ aid, st1.items = st.items.map (fun j => { j with active := decide (j.id = aid) })
      ∧ st1.nextId = st.nextId := by
  simp only [handleArrowKey] at h
  split at h
  · exact absurd h (by simp)
  · rename_i it heq
    refine ⟨it.id, ?_, ?_⟩
    · rw [← Option.some.inj h]
      dsimp only
      rw [show (clearActiveItemStyles st).items
          = st.items.map (fun j => { j with active := false }) from rfl]
      exact mark_clear_map st.items it.id
    · rw [← Option.some.inj h]
      rfl

theorem stateOk_handleArrowKey (dir : Dir) (st st1 : AState) (h : StateOk st)
    (hs : handleArrowKey dir st = some st1) : StateOk st1 := by
  obtain ⟨h1, h2, h3⟩ := h
  obtain ⟨aid, hitems, hnext⟩ := handleArrowKey_some_shape dir st st1 hs
  refine ⟨?_, ?_, ?_⟩
  · rw [hitems, ids_map_mark]
    exact h1
  · intro it hit
    rw [hitems] at hit
    obtain ⟨j, hj, rfl⟩ := List.mem_map.mp hit
    rw [hnext]
    exact h2 j hj
  · unfold activeCount
    rw [hitems]
    calc ((st.items.map (fun j => { j with active := decide (j.id = aid) })).filter
            (fun it => it.active)).length
        = (st.items.filter (fun j => j.id == aid)).length := by
          rw [List.filter_map, List.length_map]
          congr 1
      _ ≤ 1 := count_id_le_one st.items aid h1

theorem stateOk_setInput (v : String) (st : AState) (h : StateOk st) :
    StateOk (setInput v st) :=
  stateOk_hideItems _ (stateOk_handleInput _ ⟨h.1, h.2.1, h.2.2⟩)

theorem stateOk_generateItemsSt (l : List String) (st : AState) :
    StateOk (generateItemsSt l st) := by
  refine ⟨genItems_nodup _ _, ?_, ?_⟩
  · intro it hit
    have := genItems_ids (st.nextId + 1) l it hit
    show it.id < st.nextId + 1 + l.length
    omega
  · unfold activeCount
    have : ((genItems (st.nextId + 1) l).filter (fun it => it.active)).length = 0 := by
      simp only [List.length_eq_zero, List.filter_eq_nil_iff]
      intro a ha
      simp [(genItems_flags _ _ a ha).2]
    show ((genItems (st.nextId + 1) l).filter (fun it => it.active)).length ≤ 1
    omega

theorem stateOk_setItems (l : List String) (st : AState) : StateOk (setItems l st) :=
  stateOk_generateItemsSt l _

theorem stateOk_init (st : AState) (h : StateOk st) : StateOk (init st) := by
  cases hi : st.inited with
  | true =>
    unfold init
    rw [if_pos hi]
    exact h
  | false =>
    simp only [init, hi, Bool.false_eq_true, if_false]
    have hg : StateOk (addEvents (generateHTMLSt st)) := stateOk_generateItemsSt _ _
    split <;> split <;>
      first
        | exact stateOk_handleInput _ hg
        | exact hg

theorem stateOk_destroy (st : AState) (h : StateOk st) : StateOk (destroy st) := by
  cases hi : st.inited with
  | false =>
    unfold destroy
    rw [hi]
    exact h
  | true =>
    simp only [destroy, hi, Bool.not_true]
    rw [if_neg (by simp)]
    split <;> exact h

theorem stateOk_handleKeydown (k : String) (st st1 : AState) (h : StateOk st)
    (hs : handleKeydown k st = some st1) : StateOk st1 := by
  unfold handleKeydown at hs
  split at hs
  · split at hs
    · exact stateOk_handleArrowKey _ _ _ h hs
    · exact stateOk_handleArrowKey _ _ _ h hs
    · split at hs
      · rw [← Option.some.inj hs]
        exact stateOk_setInput _ _ h
      · rw [← Option.some.inj hs]
        exact h
    · rw [← Option.some.inj hs]
      exact h
  · rw [← Option.some.inj hs]
    exact h

theorem stateOk_step (e : Ev) (st st1 : AState) (h : StateOk st)
    (hs : step e st = some st1) : StateOk st1 := by
  cases e <;> simp only [step] at hs
  case input s =>
    rw [← Option.some.inj hs]
    split
    · exact stateOk_handleInput _ ⟨h.1, h.2.1, h.2.2⟩
    · exact ⟨h.1, h.2.1, h.2.2⟩
  case key k =>
    split at hs
    · exact stateOk_handleKeydown _ _ _ h hs
    · rw [← Option.some.inj hs]
      exact h
  case click i =>
    split at hs
    · rw [← Option.some.inj hs]
      split
      · exact stateOk_setInput _ _ h
      · exact h
    · rw [← Option.some.inj hs]
      exact h
  case doc chain =>
    rw [← Option.some.inj hs]
    split
    · unfold docClick
      split
      · exact stateOk_hideItems _ h
      · exact h
    · exact h
  case setInputOp s =>
    rw [← Option.some.inj hs]
    exact stateOk_setInput _ _ h
  case setItemsOp l =>
    rw [← Option.some.inj hs]
    exact stateOk_setItems _ _
  case showOp =>
    rw [← Option.some.inj hs]
    exact h
  case hideOp =>
    rw [← Option.some.inj hs]
    exact stateOk_hideItems _ h
  case initOp =>
    rw [← Option.some.inj hs]
    exact stateOk_init _ h
  case destroyOp =>
    rw [← Option.some.inj hs]
    exact stateOk_destroy _ h

theorem stateOk_reachable (st : AState) (h : Reachable st) : StateOk st := by
  induction h with
  | base inputId v0 vmi items0 h1 h2 =>
    refine stateOk_init _ ⟨by simp, ?_, ?_⟩
    · intro it hmem
      cases hmem
    · simp [activeCount]
  | next e hr hs ih => exact stateOk_step e _ _ ih hs

-- C10 claim theorem
/-- C10: in every state reachable by any event sequence, at most one
item element carries the active-highlight class. -/
theorem at_most_one_active (st : AState) (h : Reachable st) : activeCount st ≤ 1 :=
  (stateOk_reachable st h).2.2

-- C10 witness
theorem at_most_one_active_witness : activeCount runA0 ≤ 1 :=
  at_most_one_active runA0 (Reachable.base 0 "" false ["apple", "banana", "cherry"]
    false false)

-- C1 claim theorem
/-- C1: after `handleInput` runs on input text `s`, an item carries the
item-visible class iff its lowercased text contains lowercased `s` as a
substring, and the panel-visible class is present iff `s` is non-empty. -/
theorem handleInput_filters_and_toggles_panel (st : AState) (s : String) :
    ((handleInput { st with inputValue := s }).items.map
        (fun it => (it.id, it.text, it.visible))
      = st.items.map (fun it => (it.id, it.text, strContains (lower it.text) (lower s))))
    ∧ (handleInput { st with inputValue := s }).panelVisible = (s != "") := by
  unfold handleInput hideItems showItems clearActiveItemStyles
  by_cases h : s = ""
  · subst h
    simp [lower]
  · have hl : ¬ (lower s = "") := fun hh => h ((lower_eq_empty_iff s).mp hh)
    simp [hl, h, List.map_map]

-- C4 claim theorem
/-- C4: with `valueMatchItem` enabled, `hideItems()` removes the
panel-visible class, clears the highlight and the active reference, and
clears the input text exactly when no item of the full collection matches
it case-insensitively; a match leaves the text as typed. -/
theorem hideItems_valueMatchItem (st : AState) (h : st.valueMatchItem = true) :
    (hideItems st).panelVisible = false
    ∧ (hideItems st).activeItem = none
    ∧ (hideItems st).items.all (fun it => !it.active) = true
    ∧ (hideItems st).inputValue =
        (if st.items.any (fun it => lower it.text == lower st.inputValue)
         then st.inputValue else "") := by
  rw [hideItems_eq]
  refine ⟨rfl, rfl, ?_, ?_⟩
  · simp [List.all_map, Function.comp_def]
  · dsimp only
    rw [if_pos h]

-- C4 witness
theorem hideItems_valueMatchItem_witness :
    (hideItems { runA0 with valueMatchItem := true, inputValue := "APPle" }).inputValue
      = "APPle" := by
  have h := hideItems_valueMatchItem
    { runA0 with valueMatchItem := true, inputValue := "APPle" } rfl
  rw [h.2.2.2]
  decide

-- C8 claim theorem
/-- C8: `init()` on an already-initialized instance and `destroy()` on a
non-initialized instance emit one diagnostic and change nothing else. -/
theorem reinit_redestroy_noop (st : AState) :
    (st.inited = true → init st = { st with diagnostics := st.diagnostics + 1 })
    ∧ (st.inited = false → destroy st = { st with diagnostics := st.diagnostics + 1 }) := by
  constructor
  · intro h
    unfold init
    rw [if_pos h]
  · intro h
    unfold destroy
    rw [if_pos (by rw [h]; rfl)]

-- C8 witness
theorem reinit_redestroy_noop_witness :
    init runA0 = { runA0 with diagnostics := runA0.diagnostics + 1 }
    ∧ destroy (destroy runA0)
        = { destroy runA0 with diagnostics := (destroy runA0).diagnostics + 1 } := by
  constructor
  · exact (reinit_redestroy_noop runA0).1 rfl
  · exact (reinit_redestroy_noop (destroy runA0)).2 rfl

theorem getKey_setKey (l : List (String × JVal)) (k : String) (v : JVal) (k2 : String) :
    getKey (setKey l k v) k2 = if k2 = k then some v else getKey l k2 := by
  by_cases hk : k2 = k
  · subst hk
    rw [if_pos rfl]
    induction l with
    | nil => simp [setKey, getKey, List.find?]
    | cons p t ih =>
      by_cases hp : p.1 = k2
      · simp [setKey, getKey, List.find?, hp]
      · rw [show setKey (p :: t) k2 v = p :: setKey t k2 v from by simp [setKey, hp]]
        rw [show getKey (p :: setKey t k2 v) k2 = getKey (setKey t k2 v) k2 from by
          simp [getKey, List.find?, hp]]
        exact ih
  · rw [if_neg hk]
    have hk2 : ¬ k = k2 := fun h => hk h.symm
    induction l with
    | nil => simp [setKey, getKey, List.find?, hk2]
    | cons p t ih =>
      by_cases hp : p.1 = k
      · subst hp
        simp [setKey, getKey, List.find?, hk2]
      · by_cases hp2 : p.1 = k2
        · simp [setKey, getKey, List.find?, hp, hp2, hk]
        · rw [show setKey (p :: t) k v = p :: setKey t k v from by simp [setKey, hp]]
          rw [show getKey (p :: setKey t k v) k2 = getKey (setKey t k v) k2 from by
            simp [getKey, List.find?, hp2]]
          rw [show getKey (p :: t) k2 = getKey t k2 from by
            simp [getKey, List.find?, hp2]]
          exact ih

theorem keyList_cons (p : String × JVal) (t : List (String × JVal)) :
    keyList (p :: t) = p.1 :: keyList t := rfl

theorem getKey_cons_ne (p : String × JVal) (t : List (String × JVal)) (k : String)
    (h : ¬ p.1 = k) : getKey (p :: t) k = getKey t k := by
  simp [getKey, List.find?, h]

theorem getKey_cons_eq (p : String × JVal) (t : List (String × JVal)) (k : String)
    (h : p.1 = k) : getKey (p :: t) k = some p.2 := by
  simp [getKey, List.find?, h]

theorem getKey_eq_none_iff (l : List (String × JVal)) (k : String) :
    getKey l k = none ↔ k ∉ keyList l := by
  induction l with
  | nil => simp [getKey, List.find?, keyList]
  | cons p t ih =>
    by_cases hp : p.1 = k
    · rw [getKey_cons_eq p t k hp, keyList_cons]
      simp [hp]
    · rw [getKey_cons_ne p t k hp, ih, keyList_cons]
      simp only [List.mem_cons, not_or]
      constructor
      · exact fun h2 => ⟨fun hh => hp hh.symm, h2⟩
      · exact fun h2 => h2.2

theorem setKey_absent (l : List (String × JVal)) (k : String) (v : JVal)
    (h : k ∉ keyList l) : setKey l k v = l ++ [(k, v)] := by
  induction l with
  | nil => rfl
  | cons p t ih =>
    rw [keyList_cons, List.mem_cons] at h
    push_neg at h
    simp only [setKey]
    rw [if_neg (fun hh => h.1 hh.symm), ih h.2]
    simp

theorem keyList_setKey_mem (l : List (String × JVal)) (k : String) (v : JVal)
    (h : k ∈ keyList l) : keyList (setKey l k v) = keyList l := by
  induction l with
  | nil => simp [keyList] at h
  | cons p t ih =>
    by_cases hp : p.1 = k
    · simp [setKey, hp, keyList_cons, keyList]
    · rw [keyList_cons, List.mem_cons] at h
      rcases h with h | h
      · exact absurd h.symm hp
      · simp only [setKey]
        rw [if_neg hp, keyList_cons, keyList_cons, ih h]

theorem goodList_mem (kvs : List (String × JVal)) (h : goodList kvs = true) :
    ∀ p ∈ kvs, good p.2 = true := by
  induction kvs with
  | nil => intro p hp; cases hp
  | cons q t ih =>
    rw [goodList] at h
    simp only [Bool.and_eq_true] at h
    intro p hp
    rcases List.mem_cons.mp hp with rfl | hp
    · exact h.1
    · exact ih h.2 p hp

theorem compatList_mem (as bs : List (String × JVal)) (h : compatList as bs = true) :
    ∀ q ∈ bs, ∀ av, getKey as q.1 = some av → compat av q.2 = true := by
  induction bs with
  | nil => intro q hq; cases hq
  | cons p t ih =>
    obtain ⟨k, v⟩ := p
    rw [compatList] at h
    simp only [Bool.and_eq_true] at h
    intro q hq av hav
    rcases List.mem_cons.mp hq with rfl | hq
    · rw [hav] at h
      exact h.1
    · exact ih h.2 q hq av hav

theorem jHeightList_mem (kvs : List (String × JVal)) :
    ∀ p ∈ kvs, jHeight p.2 ≤ jHeightList kvs := by
  induction kvs with
  | nil => intro p hp; cases hp
  | cons q t ih =>
    intro p hp
    rw [jHeightList]
    rcases List.mem_cons.mp hp with rfl | hp
    · exact Nat.le_max_left _ _
    · exact le_trans (ih p hp) (Nat.le_max_right _ _)

theorem getKey_mem (l : List (String × JVal)) (k : String) (v : JVal)
    (h : getKey l k = some v) : (k, v) ∈ l := by
  unfold getKey at h
  cases hf : l.find? (fun p => p.1 = k) with
  | none => rw [hf] at h; cases h
  | some p =>
    rw [hf] at h
    have hm := List.mem_of_find?_eq_some hf
    have hk := List.find?_some hf
    simp at hk h
    rw [← h, ← hk]
    exact hm

theorem concatSpread_scalars (ps os : List JVal) (h : os.all isScalar = true) :
    concatSpread ps os = ps ++ os := by
  unfold concatSpread
  congr 1
  induction os with
  | nil => rfl
  | cons x t ih =>
    simp only [List.all_cons, Bool.and_eq_true] at h
    rw [List.flatMap_cons, ih h.2]
    cases x <;> simp [isScalar] at h ⊢

theorem mergeEntry_none (fuel : Nat) (prev : List (String × JVal)) (k : String)
    (v : JVal) (h : getKey prev k = none) :
    mergeEntry fuel prev (k, v) = some (setKey prev k v) := by
  simp only [mergeEntry, h]
  cases v <;> simp [optIsObject]

theorem mergeEntry_arr_arr (fuel : Nat) (prev : List (String × JVal)) (k : String)
    (ps os : List JVal) (h : getKey prev k = some (JVal.arr ps)) :
    mergeEntry fuel prev (k, JVal.arr os)
      = some (setKey prev k (JVal.arr (concatSpread ps os))) := by
  simp only [mergeEntry, h]

theorem mergeEntry_obj_obj (fuel1 : Nat) (prev : List (String × JVal)) (k : String)
    (avs bvs : List (String × JVal)) (h : getKey prev k = some (JVal.obj avs)) :
    mergeEntry (fuel1 + 1) prev (k, JVal.obj bvs)
      = (match deepMergeGo fuel1 [] [JVal.obj avs, JVal.obj bvs] with
          | some merged => some (setKey prev k (JVal.obj merged))
          | none => none) := by
  simp only [mergeEntry, h]
  simp [optIsObject, isObject]

theorem mergeEntry_later (fuel : Nat) (prev : List (String × JVal)) (k : String)
    (v pv : JVal) (h : getKey prev k = some pv)
    (hcase : isScalar v = true ∨ isObject pv = false) :
    mergeEntry fuel prev (k, v) = some (setKey prev k v) := by
  simp only [mergeEntry, h]
  rcases hcase with hc | hc <;>
    cases pv <;> cases v <;> simp_all [optIsObject, isObject, isScalar]

theorem mergeEntries_fresh (fuel : Nat) (l2 : List (String × JVal)) :
    ∀ prev, (keyList l2).Nodup → (∀ k ∈ keyList l2, getKey prev k = none) →
    mergeEntries fuel prev l2 = some (prev ++ l2) := by
  induction l2 with
  | nil =>
    intro prev _ _
    simp [mergeEntries]
  | cons q t ih =>
    intro prev hnd hfresh
    obtain ⟨k, v⟩ := q
    have hk : getKey prev k = none := hfresh k (by
      rw [keyList_cons]
      exact List.mem_cons_self _ _)
    rw [keyList_cons, List.nodup_cons] at hnd
    have habs := setKey_absent prev k v ((getKey_eq_none_iff prev k).mp hk)
    have hstep := ih (prev ++ [(k, v)]) hnd.2 (by
      intro k2 hk2
      rw [← habs, getKey_setKey]
      rw [if_neg (fun (hh : k2 = k) => hnd.1 (hh ▸ hk2))]
      exact hfresh k2 (by rw [keyList_cons]; exact List.mem_cons_of_mem _ hk2))
    rw [mergeEntries, mergeEntry_none fuel prev k v hk, habs]
    dsimp only
    rw [hstep]
    simp

theorem mergeEntry_spec_step (fuel : Nat)
    (IH : ∀ f2, f2 < fuel → ∀ avs bvs : List (String × JVal),
        good (JVal.obj avs) = true → good (JVal.obj bvs) = true →
        compat (JVal.obj avs) (JVal.obj bvs) = true →
        jHeight (JVal.obj avs) ≤ f2 →
        deepMergeGo f2 [] [JVal.obj avs, JVal.obj bvs]
          = some (specMergeList avs bvs
              ++ bvs.filter (fun q => !(keyList avs).contains q.1)))
    (prev : List (String × JVal)) (k : String) (v av : JVal)
    (hprev : getKey prev k = some av)
    (hcompat : compat av v = true) (hgooda : good av = true)
    (hgoodv : good v = true) (hheight : jHeight av < fuel) :
    mergeEntry fuel prev (k, v) = some (setKey prev k (specMerge av v)) := by
  cases av with
  | arr ps =>
    cases v with
    | arr os =>
      rw [mergeEntry_arr_arr fuel prev k ps os hprev]
      rw [concatSpread_scalars ps os (by simpa [good] using hgoodv)]
      simp [specMerge]
    | obj bvs => simp [compat] at hcompat
    | str s =>
      rw [mergeEntry_later fuel prev k (JVal.str s) _ hprev (Or.inl rfl)]
      simp [specMerge]
    | num n =>
      rw [mergeEntry_later fuel prev k (JVal.num n) _ hprev (Or.inl rfl)]
      simp [specMerge]
    | bool b =>
      rw [mergeEntry_later fuel prev k (JVal.bool b) _ hprev (Or.inl rfl)]
      simp [specMerge]
    | null =>
      rw [mergeEntry_later fuel prev k JVal.null _ hprev (Or.inl rfl)]
      simp [specMerge]
  | obj avs =>
    cases v with
    | arr os => simp [compat] at hcompat
    | obj bvs =>
      have hh : jHeight (JVal.obj avs) ≥ 1 := by rw [jHeight]; omega
      cases fuel with
      | zero => omega
      | succ f1 =>
        rw [mergeEntry_obj_obj f1 prev k avs bvs hprev]
        rw [IH f1 (by omega) avs bvs hgooda hgoodv (by simpa [compat] using hcompat)
          (by omega)]
        simp [specMerge]
    | str s =>
      rw [mergeEntry_later fuel prev k (JVal.str s) _ hprev (Or.inl rfl)]
      simp [specMerge]
    | num n =>
      rw [mergeEntry_later fuel prev k (JVal.num n) _ hprev (Or.inl rfl)]
      simp [specMerge]
    | bool b =>
      rw [mergeEntry_later fuel prev k (JVal.bool b) _ hprev (Or.inl rfl)]
      simp [specMerge]
    | null =>
      rw [mergeEntry_later fuel prev k JVal.null _ hprev (Or.inl rfl)]
      simp [specMerge]
  | str s =>
    rw [mergeEntry_later fuel prev k v _ hprev (Or.inr rfl)]
    cases v <;> simp [specMerge]
  | num n =>
    rw [mergeEntry_later fuel prev k v _ hprev (Or.inr rfl)]
    cases v <;> simp [specMerge]
  | bool b =>
    rw [mergeEntry_later fuel prev k v _ hprev (Or.inr rfl)]
    cases v <;> simp [specMerge]
  | null =>
    rw [mergeEntry_later fuel prev k v _ hprev (Or.inr rfl)]
    cases v <;> simp [specMerge]

theorem mergeEntries_spec (fuel : Nat)
    (IH : ∀ f2, f2 < fuel → ∀ avs bvs : List (String × JVal),
        good (JVal.obj avs) = true → good (JVal.obj bvs) = true →
        compat (JVal.obj avs) (JVal.obj bvs) = true →
        jHeight (JVal.obj avs) ≤ f2 →
        deepMergeGo f2 [] [JVal.obj avs, JVal.obj bvs]
          = some (specMergeList avs bvs
              ++ bvs.filter (fun q => !(keyList avs).contains q.1)))
    (bs2 : List (String × JVal)) :
    ∀ (prev as : List (String × JVal)),
      (keyList bs2).Nodup →
      (∀ q ∈ bs2, getKey prev q.1 = getKey as q.1) →
      (∀ q ∈ bs2, good q.2 = true) →
      (∀ q ∈ bs2, ∀ av, getKey as q.1 = some av →
          compat av q.2 = true ∧ good av = true ∧ jHeight av < fuel) →
      mergeEntries fuel prev bs2
        = some (bs2.foldl
            (fun acc q => setKey acc q.1 (mergeVal (getKey as q.1) q.2)) prev) := by
  induction bs2 with
  | nil =>
    intro prev as _ _ _ _
    simp [mergeEntries]
  | cons q t ih =>
    intro prev as hnd hagree hgood hcond
    obtain ⟨k, v⟩ := q
    have hqmem : (k, v) ∈ (k, v) :: t := List.mem_cons_self _ _
    have hprevk : getKey prev k = getKey as k := hagree (k, v) hqmem
    rw [keyList_cons, List.nodup_cons] at hnd
    have hstep : mergeEntry fuel prev (k, v)
        = some (setKey prev k (mergeVal (getKey as k) v)) := by
      cases hG : getKey as k with
      | none =>
        rw [mergeEntry_none fuel prev k v (hprevk.trans hG)]
        simp [mergeVal]
      | some av =>
        obtain ⟨hc, hga, hh⟩ := hcond (k, v) hqmem av hG
        rw [mergeEntry_spec_step fuel IH prev k v av (hprevk.trans hG) hc hga
          (hgood (k, v) hqmem) hh]
        simp [mergeVal]
    rw [mergeEntries, hstep]
    dsimp only
    rw [ih (setKey prev k (mergeVal (getKey as k) v)) as hnd.2
      (by
        intro q2 hq2
        rw [getKey_setKey]
        rw [if_neg (fun (hh : q2.1 = k) => hnd.1 (hh ▸ (List.mem_map.mpr ⟨q2, hq2, rfl⟩)))]
        exact hagree q2 (List.mem_cons_of_mem _ hq2))
      (fun q2 hq2 => hgood q2 (List.mem_cons_of_mem _ hq2))
      (fun q2 hq2 => hcond q2 (List.mem_cons_of_mem _ hq2))]
    rfl

theorem assoc_ext (l1 : List (String × JVal)) :
    ∀ l2 : List (String × JVal), keyList l1 = keyList l2 → (keyList l1).Nodup →
      (∀ k, getKey l1 k = getKey l2 k) → l1 = l2 := by
  induction l1 with
  | nil =>
    intro l2 hk _ _
    cases l2 with
    | nil => rfl
    | cons p t => simp [keyList] at hk
  | cons p t ih =>
    intro l2 hk hnd hget
    cases l2 with
    | nil => simp [keyList] at hk
    | cons p2 t2 =>
      rw [keyList_cons, keyList_cons] at hk
      have hk1 : p.1 = p2.1 := by
        injection hk with h1 _
      have hv : p.2 = p2.2 := by
        have h1 := hget p.1
        rw [getKey_cons_eq p t p.1 rfl, getKey_cons_eq p2 t2 p.1 hk1.symm] at h1
        exact Option.some.inj h1
      have hkt : keyList t = keyList t2 := by
        injection hk
      rw [keyList_cons, List.nodup_cons] at hnd
      have ht : t = t2 := by
        refine ih t2 hkt hnd.2 (fun k => ?_)
        by_cases hkp : k = p.1
        · have hG : getKey t k = none := by
            rw [getKey_eq_none_iff, hkp]
            exact hnd.1
          have hG2 : getKey t2 k = none := by
            rw [getKey_eq_none_iff, ← hkt, hkp]
            exact hnd.1
          rw [hG, hG2]
        · have h1 := hget k
          rw [getKey_cons_ne p t k (fun hh => hkp hh.symm),
            getKey_cons_ne p2 t2 k (fun hh => hkp (hk1.trans hh).symm)] at h1
          exact h1
      calc p :: t = (p.1, p.2) :: t := by rfl
        _ = (p2.1, p2.2) :: t2 := by rw [hk1, hv, ht]
        _ = p2 :: t2 := by rfl

theorem fold_keys (g : (String × JVal) → JVal) (bs : List (String × JVal)) :
    ∀ acc : List (String × JVal), (keyList bs).Nodup →
      keyList (bs.foldl (fun a q => setKey a q.1 (g q)) acc)
        = keyList acc ++ keyList (bs.filter (fun q => !(keyList acc).contains q.1)) := by
  induction bs with
  | nil =>
    intro acc _
    simp [keyList]
  | cons q t ih =>
    intro acc hnd
    rw [keyList_cons, List.nodup_cons] at hnd
    rw [List.foldl_cons]
    by_cases hq : q.1 ∈ keyList acc
    · have hkeys : keyList (setKey acc q.1 (g q)) = keyList acc :=
        keyList_setKey_mem acc q.1 (g q) hq
      rw [ih _ hnd.2, hkeys]
      rw [List.filter_cons, if_neg (by simp [List.elem_iff, hq])]
    · have habs := setKey_absent acc q.1 (g q) hq
      rw [ih _ hnd.2, habs]
      rw [List.filter_cons, if_pos (by simp [List.elem_iff, hq])]
      have hkeys2 : keyList (acc ++ [(q.1, g q)]) = keyList acc ++ [q.1] := by
        simp [keyList]
      rw [hkeys2]
      have hfeq : t.filter (fun q2 => !(keyList acc ++ [q.1]).contains q2.1)
          = t.filter (fun q2 => !(keyList acc).contains q2.1) := by
        refine List.filter_congr (fun a ha => ?_)
        have hne : a.1 ≠ q.1 := by
          intro hh
          exact hnd.1 (hh ▸ (List.mem_map.mpr ⟨a, ha, rfl⟩))
        simp [List.elem_iff, hne]
      rw [hfeq, keyList_cons]
      simp

theorem fold_getKey (g : (String × JVal) → JVal) (bs : List (String × JVal)) :
    ∀ acc : List (String × JVal), (keyList bs).Nodup → ∀ k,
      getKey (bs.foldl (fun a q => setKey a q.1 (g q)) acc) k
        = (match bs.find? (fun q => q.1 = k) with
           | some q => some (g q)
           | none => getKey acc k) := by
  induction bs with
  | nil =>
    intro acc _ k
    simp [List.find?]
  | cons q t ih =>
    intro acc hnd k
    rw [keyList_cons, List.nodup_cons] at hnd
    rw [List.foldl_cons, ih _ hnd.2 k]
    by_cases hqk : q.1 = k
    · have hfind : t.find? (fun q2 => q2.1 = k) = none := by
        rw [List.find?_eq_none]
        intro a ha
        simp only [decide_eq_true_eq]
        intro hh
        exact hnd.1 ((hqk.trans hh.symm) ▸ (List.mem_map.mpr ⟨a, ha, rfl⟩))
      rw [hfind]
      rw [show List.find? (fun q2 => decide (q2.1 = k)) (q :: t) = some q from by
        simp [List.find?, hqk]]
      rw [getKey_setKey]
      rw [if_pos hqk.symm]
    · rw [show List.find? (fun q2 => decide (q2.1 = k)) (q :: t)
          = List.find? (fun q2 => decide (q2.1 = k)) t from by
        simp [List.find?, hqk]]
      cases hf : t.find? (fun q2 => decide (q2.1 = k)) with
      | some q2 => rfl
      | none =>
        rw [getKey_setKey]
        rw [if_neg (fun hh => hqk hh.symm)]

theorem getKey_append (l1 l2 : List (String × JVal)) (k : String) :
    getKey (l1 ++ l2) k
      = (match getKey l1 k with
         | some v => some v
         | none => getKey l2 k) := by
  induction l1 with
  | nil => simp [getKey, List.find?]
  | cons p t ih =>
    by_cases hp : p.1 = k
    · rw [List.cons_append, getKey_cons_eq _ _ _ hp, getKey_cons_eq _ _ _ hp]
    · rw [List.cons_append, getKey_cons_ne _ _ _ hp, getKey_cons_ne _ _ _ hp, ih]

theorem keyList_specMergeList (as bs : List (String × JVal)) :
    keyList (specMergeList as bs) = keyList as := by
  induction as with
  | nil => simp [specMergeList, keyList]
  | cons p t ih =>
    obtain ⟨k, v⟩ := p
    rw [specMergeList, keyList_cons, keyList_cons, ih]

theorem getKey_specMergeList (as bs : List (String × JVal)) (k : String) :
    getKey (specMergeList as bs) k
      = (match getKey as k with
         | some av => some (match getKey bs k with
             | some bv => specMerge av bv
             | none => av)
         | none => none) := by
  induction as with
  | nil => simp [specMergeList, getKey, List.find?]
  | cons p t ih =>
    obtain ⟨k2, v⟩ := p
    rw [specMergeList]
    by_cases hp : k2 = k
    · subst hp
      rw [getKey_cons_eq _ _ _ rfl, getKey_cons_eq _ _ _ rfl]
    · rw [getKey_cons_ne _ _ _ hp, getKey_cons_ne _ _ _ hp, ih]

theorem getKey_filter (p : (String × JVal) → Bool) (bs : List (String × JVal))
    (hnd : (keyList bs).Nodup) (k : String) :
    getKey (bs.filter p) k
      = (match bs.find? (fun q => q.1 = k) with
         | some q => if p q then some q.2 else none
         | none => none) := by
  induction bs with
  | nil => simp [getKey, List.find?]
  | cons q t ih =>
    rw [keyList_cons, List.nodup_cons] at hnd
    by_cases hqk : q.1 = k
    · rw [show List.find? (fun q2 => decide (q2.1 = k)) (q :: t) = some q from by
        simp [List.find?, hqk]]
      have htnone : getKey (t.filter p) k = none := by
        rw [getKey_eq_none_iff]
        intro hmem
        obtain ⟨a, ha, hak⟩ := List.mem_map.mp hmem
        have hat : a ∈ t := List.mem_of_mem_filter ha
        have hmm : q.1 ∈ keyList t := by
          rw [hqk, ← hak]
          exact List.mem_map.mpr ⟨a, hat, rfl⟩
        exact hnd.1 hmm
      rw [List.filter_cons]
      by_cases hpq : p q
      · rw [if_pos hpq, getKey_cons_eq _ _ _ hqk]
        simp [hpq]
      · rw [if_neg hpq, htnone]
        simp [hpq]
    · rw [show List.find? (fun q2 => decide (q2.1 = k)) (q :: t)
          = List.find? (fun q2 => decide (q2.1 = k)) t from by
        simp [List.find?, hqk]]
      rw [List.filter_cons]
      by_cases hpq : p q
      · rw [if_pos hpq, getKey_cons_ne _ _ _ hqk, ih hnd.2]
      · rw [if_neg hpq, ih hnd.2]

theorem keyList_append (l1 l2 : List (String × JVal)) :
    keyList (l1 ++ l2) = keyList l1 ++ keyList l2 := by
  simp [keyList]

theorem keyList_filter_sublist (p : (String × JVal) → Bool)
    (bs : List (String × JVal)) :
    (keyList (bs.filter p)).Sublist (keyList bs) :=
  List.Sublist.map _ (List.filter_sublist bs)

theorem foldSetKey_spec (as bs : List (String × JVal))
    (hA : (keyList as).Nodup) (hB : (keyList bs).Nodup) :
    bs.foldl (fun acc q => setKey acc q.1 (mergeVal (getKey as q.1) q.2)) as
      = specMergeList as bs ++ bs.filter (fun q => !(keyList as).contains q.1) := by
  have hkeys := fold_keys (fun q => mergeVal (getKey as q.1) q.2) bs as hB
  refine assoc_ext _ _ ?_ ?_ ?_
  · rw [hkeys, keyList_append, keyList_specMergeList]
  · rw [hkeys]
    refine List.Nodup.append hA ((keyList_filter_sublist _ _).nodup hB) ?_
    intro k hk1 hk2
    obtain ⟨a, ha, hak⟩ := List.mem_map.mp hk2
    have := List.of_mem_filter ha
    simp only [List.elem_iff, Bool.not_eq_true] at this
    rw [hak] at this
    simp at this
    exact this hk1
  · intro k
    rw [fold_getKey _ _ _ hB, getKey_append, getKey_specMergeList]
    cases hf : bs.find? (fun q => q.1 = k) with
    | none =>
      cases hG : getKey as k with
      | none =>
        rw [getKey_filter _ _ hB, hf]
      | some av =>
        have hbs : getKey bs k = none := by
          rw [show getKey bs k = (match bs.find? (fun q => q.1 = k) with
              | some q => some q.2
              | none => none) from rfl, hf]
        simp only [hf, hG, hbs]
    | some q =>
      have hqk : q.1 = k := by
        have := List.find?_some hf
        simpa using this
      have hbs : getKey bs k = some q.2 := by
        rw [show getKey bs k = (match bs.find? (fun q => q.1 = k) with
            | some q => some q.2
            | none => none) from rfl, hf]
      cases hG : getKey as k with
      | none =>
        rw [getKey_filter _ _ hB, hf]
        have hnotin : k ∉ keyList as := (getKey_eq_none_iff as k).mp hG
        dsimp only
        rw [hqk, hG]
        rw [if_pos (by simp [List.elem_iff]; exact hnotin)]
        simp [mergeVal]
      | some av =>
        dsimp only
        rw [hqk, hG, hbs]
        simp [mergeVal]

theorem deepMergeGo_spec :
    ∀ fuel (avs bvs : List (String × JVal)),
    good (JVal.obj avs) = true → good (JVal.obj bvs) = true →
    compat (JVal.obj avs) (JVal.obj bvs) = true →
    jHeight (JVal.obj avs) ≤ fuel →
    deepMergeGo fuel [] [JVal.obj avs, JVal.obj bvs]
      = some (specMergeList avs bvs
          ++ bvs.filter (fun q => !(keyList avs).contains q.1)) := by
  intro fuel
  induction fuel using Nat.strong_induction_on with
  | _ fuel IH =>
    intro avs bvs hga hgb hc hh
    have hga2 : (keyList avs).Nodup ∧ goodList avs = true := by
      rw [good] at hga
      simpa using hga
    have hgb2 : (keyList bvs).Nodup ∧ goodList bvs = true := by
      rw [good] at hgb
      simpa using hgb
    have hcl : compatList avs bvs = true := by
      rw [compat] at hc
      exact hc
    have hfresh : mergeEntries fuel [] avs = some ([] ++ avs) :=
      mergeEntries_fresh fuel avs [] hga2.1 (fun k _ => rfl)
    rw [deepMergeGo, show jEntries (JVal.obj avs) = avs from rfl, hfresh]
    dsimp only
    rw [List.nil_append]
    rw [deepMergeGo, show jEntries (JVal.obj bvs) = bvs from rfl]
    rw [mergeEntries_spec fuel (fun f2 hf2 => IH f2 hf2) bvs avs avs hgb2.1
      (fun q _ => rfl)
      (fun q hq => goodList_mem bvs hgb2.2 q hq)
      (by
        intro q hq av hav
        refine ⟨compatList_mem avs bvs hcl q hq av hav, ?_, ?_⟩
        · exact goodList_mem avs hga2.2 (q.1, av) (getKey_mem avs q.1 av hav)
        · have h1 := jHeightList_mem avs (q.1, av) (getKey_mem avs q.1 av hav)
          rw [jHeight] at hh
          simp at h1
          omega)]
    rw [foldSetKey_spec avs bvs hga2.1 hgb2.1]
    dsimp only
    rw [deepMergeGo]

theorem getKey_mergeResult (avs bvs : List (String × JVal))
    (hA : (keyList avs).Nodup) (hB : (keyList bvs).Nodup) (k : String) :
    getKey (specMergeList avs bvs
        ++ bvs.filter (fun q => !(keyList avs).contains q.1)) k
      = (match getKey avs k, getKey bvs k with
         | none, none => none
         | some av, none => some av
         | none, some bv => some bv
         | some av, some bv => some (specMerge av bv)) := by
  rw [← foldSetKey_spec avs bvs hA hB, fold_getKey _ _ _ hB]
  have hget : getKey bvs k = (match bvs.find? (fun q => q.1 = k) with
      | some q => some q.2
      | none => none) := rfl
  cases hf : bvs.find? (fun q => q.1 = k) with
  | none =>
    have hbs : getKey bvs k = none := by rw [hget, hf]
    rw [hbs]
    cases hG : getKey avs k <;> rfl
  | some q =>
    have hqk : q.1 = k := by simpa using List.find?_some hf
    have hbs : getKey bvs k = some q.2 := by rw [hget, hf]
    rw [hbs]
    dsimp only
    rw [hqk]
    cases hG : getKey avs k <;> simp [mergeVal]

/-- C6 (amended): on plain structures whose sequences hold only scalars
and in which no key collides sequence-vs-structure (`good`/`compat`),
`deepMerge` merges per key exactly as claimed: both sequences concatenate,
both structures merge recursively (`specMerge`), otherwise the later
input's value wins.  (Unrestricted, the claim is false twice over: the
spread in `pVal.concat(...oVal)` splices the later sequence's nested
sequences one level, and a sequence/structure collision triggers a
recursive merge of the sequence's index keys instead of replacement - see
the counterexample.  Input mutation does not arise in this pure model;
the accumulator of the JS `reduce` is a fresh object.) -/
theorem deepMerge_restricted_spec (fuel : Nat) (avs bvs : List (String × JVal))
    (hga : good (JVal.obj avs) = true) (hgb : good (JVal.obj bvs) = true)
    (hc : compat (JVal.obj avs) (JVal.obj bvs) = true)
    (hf : jHeight (JVal.obj avs) ≤ fuel) :
    ∃ r, deepMerge fuel [JVal.obj avs, JVal.obj bvs] = some (JVal.obj r)
      ∧ ∀ k, getKey r k
          = (match getKey avs k, getKey bvs k with
             | none, none => none
             | some av, none => some av
             | none, some bv => some bv
             | some av, some bv => some (specMerge av bv)) := by
  have hA : (keyList avs).Nodup := by
    rw [good] at hga
    simp only [Bool.and_eq_true, decide_eq_true_eq] at hga
    exact hga.1
  have hB : (keyList bvs).Nodup := by
    rw [good] at hgb
    simp only [Bool.and_eq_true, decide_eq_true_eq] at hgb
    exact hgb.1
  refine ⟨_, ?_, getKey_mergeResult avs bvs hA hB⟩
  unfold deepMerge
  rw [deepMergeGo_spec fuel avs bvs hga hgb hc hf]
  rfl

/-- C6 counterexample: merging `{a: [[1]]}` with `{a: [[2]]}` yields
`{a: [[1], 2]}` - the later sequence is spread one level by `concat` -
which is not the claimed concatenation `[[1], [2]]`. -/
theorem deepMerge_concat_flattens_cex :
    deepMerge 5 [JVal.obj [("a", JVal.arr [JVal.arr [JVal.num 1]])],
                 JVal.obj [("a", JVal.arr [JVal.arr [JVal.num 2]])]]
      = some (JVal.obj [("a", JVal.arr [JVal.arr [JVal.num 1], JVal.num 2])])
    ∧ JVal.arr [JVal.arr [JVal.num 1], JVal.num 2]
        ≠ JVal.arr [JVal.arr [JVal.num 1], JVal.arr [JVal.num 2]] := by
  constructor
  · simp [deepMerge, deepMergeGo, mergeEntries, mergeEntry, jEntries, getKey, setKey,
      concatSpread, List.find?, optIsObject, isObject]
  · simp

theorem deepMerge_restricted_spec_witness :
    ∃ r, deepMerge 5 [JVal.obj [("a", JVal.arr [JVal.num 9]), ("b", JVal.num 1)],
          JVal.obj [("a", JVal.arr [JVal.num 8]), ("c", JVal.str "z")]]
        = some (JVal.obj r)
      ∧ ∀ k, getKey r k
          = (match getKey [("a", JVal.arr [JVal.num 9]), ("b", JVal.num 1)] k,
                   getKey [("a", JVal.arr [JVal.num 8]), ("c", JVal.str "z")] k with
             | none, none => none
             | some av, none => some av
             | none, some bv => some bv
             | some av, some bv => some (specMerge av bv)) :=
  deepMerge_restricted_spec 5 _ _
    (by simp [good, goodList, isScalar, keyList])
    (by simp [good, goodList, isScalar, keyList])
    (by simp [compat, compatList, getKey, List.find?])
    (by simp [jHeight, jHeightList])
